import Mathlib

/-!
# Verification of the LanyFS userspace utilities

Shallow embedding of `mkfs.lanyfs` (mkfs.c), the on-disk structure
declarations (lanyfs.h) and `detectfs.lanyfs` (detectfs.c), together with
proofs about the free-space chain builder, the endian codec, the chain-block
slot accessors and the superblock detector.

Machine integers are modelled as `Nat`; wherever the C code truncates
(copying only the low `addrlen` bytes of a 64-bit value into a slot) the
truncation appears as an explicit `% 2^(8*addrlen)` fact in the lemmas.
Byte buffers are `List Nat` with every entry meant to be `< 256`.
-/

namespace LanyFS

set_option autoImplicit false
set_option maxRecDepth 40000

/-! ## Constants from lanyfs.h -/

def LANYFS_SUPER_MAGIC : Nat := 0x594E414C
def LANYFS_MAJOR_VERSION : Nat := 1
def LANYFS_MINOR_VERSION : Nat := 4
def LANYFS_SUPERBLOCK : Nat := 0
def LANYFS_TYPE_DIR : Nat := 0x10
def LANYFS_TYPE_EXT : Nat := 0x80
def LANYFS_TYPE_SB : Nat := 0xD0

/-- mkfs.c: `#define MKLANYFS_MIN_BLOCKS 16`. -/
def MKLANYFS_MIN_BLOCKS : Nat := 16

/-! ## Little-endian byte strings

`memcpy` of the in-memory representation of a `uint64_t` on a little-endian
host moves its low-order bytes first; we model byte strings directly. -/

/-- The `len`-byte little-endian byte string of `n` (low bytes first). -/
def leEncode : Nat → Nat → List Nat
  | 0, _ => []
  | len + 1, n => n % 256 :: leEncode len (n / 256)

/-- Value of a little-endian byte string (first byte is least significant). -/
def leDecode : List Nat → Nat
  | [] => 0
  | b :: bs => b + 256 * leDecode bs

/-! ## Endian codec (tole16 / fromle16 / tole64 / fromle64)

mkfs.c and detectfs.c detect the host byte order at run time by writing
`int i = 1` and inspecting its first byte, then conditionally byteswap:

    int i = 1;
    if (!*((unsigned char *) &i) == 0x01)
        n = bswap_16(n);

We model the host order as a boolean parameter; the first in-memory byte of
the `int` value 1 is `1` on a little-endian host and `0` on a big-endian one.
Note the C expression parses as `(!*p) == 0x01`, which we translate exactly. -/

/-- C logical negation: `!x` is 1 when `x` is zero and 0 otherwise. -/
def cNot (x : Nat) : Nat := if x = 0 then 1 else 0

/-- First in-memory byte of `int i = 1` on the given host. -/
def hostFirstByteOfOne (littleEndian : Bool) : Nat :=
  if littleEndian then 1 else 0

/-- Model of `bswap_16`: swap the two bytes of a 16-bit value. -/
def bswap16 (n : Nat) : Nat := (n % 256) * 256 + (n / 256) % 256

/-- Model of `bswap_64`: reverse the eight bytes of a 64-bit value. -/
def bswap64 (n : Nat) : Nat := leDecode ((leEncode 8 n).reverse)

/-- mkfs.c/detectfs.c `tole16`. -/
def tole16 (littleEndian : Bool) (n : Nat) : Nat :=
  if cNot (hostFirstByteOfOne littleEndian) = 0x01 then bswap16 n else n

/-- mkfs.c/detectfs.c `fromle16`. -/
def fromle16 (littleEndian : Bool) (n : Nat) : Nat :=
  if cNot (hostFirstByteOfOne littleEndian) = 0x01 then bswap16 n else n

/-- mkfs.c/detectfs.c `tole64`. -/
def tole64 (littleEndian : Bool) (n : Nat) : Nat :=
  if cNot (hostFirstByteOfOne littleEndian) = 0x01 then bswap64 n else n

/-- mkfs.c/detectfs.c `fromle64`. -/
def fromle64 (littleEndian : Bool) (n : Nat) : Nat :=
  if cNot (hostFirstByteOfOne littleEndian) = 0x01 then bswap64 n else n

/-! ## Chain-block layout (lanyfs.h, struct lanyfs_chain)

    struct lanyfs_chain {
        unsigned char   type;           /* offset  0 */
        unsigned char   __reserved_0;   /* offset  1 */
        uint16_t        wrcnt;          /* offset  2 */
        unsigned char   __reserved_1[4];/* offset  4 */
        uint64_t        next;           /* offset  8 */
        unsigned char   stream;         /* offset 16 */
    };

All fields are naturally aligned, so `offsetof(struct lanyfs_chain, stream)`
is the running sum of the preceding field sizes. -/

def lanyfsChainStreamOffset : Nat := 1 + 1 + 2 + 4 + 8

/-- mkfs.c `chain_count_slots`:
    slots = (1 << blocksize); slots -= offsetof(struct lanyfs_chain, stream);
    slots /= addrlen. -/
def chain_count_slots (blocksize addrlen : Nat) : Nat :=
  (2 ^ blocksize - lanyfsChainStreamOffset) / addrlen

/-- Number of bytes in a chain block after the `stream` offset; the model of
a chain block keeps exactly these bytes. -/
def chainStreamLength (blocksize : Nat) : Nat := 2 ^ blocksize - lanyfsChainStreamOffset

/-- mkfs.c `chain_get_slot`: out-of-range slots read as 0; otherwise
`memcpy` the `addrlen` bytes at byte offset `slot * addrlen` of the stream
into a zeroed `uint64_t` and convert with `fromle64` (identity on the
little-endian representation, which the byte list already is). -/
def chain_get_slot (blocksize addrlen : Nat) (stream : List Nat) (slot : Nat) : Nat :=
  if slot ≥ chain_count_slots blocksize addrlen then 0
  else leDecode ((stream.drop (slot * addrlen)).take addrlen)

/-- mkfs.c `chain_get_free_slot` scans `for (i = 0; i < chain_count_slots; i++)`
and returns the first `i` whose slot reads 0, `-1` (here `none`) otherwise.
`remaining` counts the iterations left, i.e. `chain_count_slots - i`. -/
def findFreeSlot (blocksize addrlen : Nat) (stream : List Nat) : Nat → Nat → Option Nat
  | _, 0 => none
  | i, remaining + 1 =>
      if chain_get_slot blocksize addrlen stream i = 0 then some i
      else findFreeSlot blocksize addrlen stream (i + 1) remaining

def chain_get_free_slot (blocksize addrlen : Nat) (stream : List Nat) : Option Nat :=
  findFreeSlot blocksize addrlen stream 0 (chain_count_slots blocksize addrlen)

/-- `memcpy(dst + off, src, src.length)` on a byte list. -/
def writeBytes (dst : List Nat) (off : Nat) (src : List Nat) : List Nat :=
  dst.take off ++ src ++ dst.drop (off + src.length)

/-- mkfs.c `chain_set_slot`: find the first free slot and `memcpy` the low
`addrlen` bytes of the little-endian representation of `addr` there;
returns `-1` (here `none`) when no slot is free. -/
def chain_set_slot (blocksize addrlen : Nat) (stream : List Nat) (addr : Nat) :
    Option (List Nat) :=
  match chain_get_free_slot blocksize addrlen stream with
  | none => none
  | some slot => some (writeBytes stream (slot * addrlen) (leEncode addrlen addr))

/-! ### Abstraction of chain streams as packed value lists

During formatting a chain stream always consists of the `addrlen`-byte
little-endian encodings of the slot values written so far, followed by the
zero bytes `calloc` provided. -/

/-- Stream of a chain block holding `vals` packed from slot 0 onwards. -/
def streamBytes (addrlen streamLen : Nat) (vals : List Nat) : List Nat :=
  vals.flatMap (leEncode addrlen) ++ List.replicate (streamLen - addrlen * vals.length) 0

/-- The decoded values of the non-zero slots of a chain block, in slot
order; this is the set of addresses a reader collects from one block. -/
def collectSlots (blocksize addrlen : Nat) (stream : List Nat) : List Nat :=
  ((List.range (chain_count_slots blocksize addrlen)).map
    (chain_get_slot blocksize addrlen stream)).filter (fun x => decide (x ≠ 0))

/-! ## mkfs.lanyfs main: building a volume

The model keeps, for each chain block, its on-disk address, its `next`
field and its stream bytes; `wrcnt`, timestamps and the label play no part
in any claim and are omitted.  `main` is modelled as a pure function from
the configuration `(blocksize, addrlen)` and the device's block count to
the ordered trace of block writes plus the final superblock values. -/

structure ChainBlock where
  addr : Nat
  next : Nat
  stream : List Nat

/-- mkfs.c `allocate_chain`: `calloc` zeroes the block, `next = 0`. -/
def allocate_chain (blocksize addr : Nat) : ChainBlock :=
  ⟨addr, 0, List.replicate (chainStreamLength blocksize) 0⟩

/-- Numeric superblock fields (mkfs.c `allocate_superblock` and the
back-patching in `main`). -/
structure SbFields where
  type : Nat
  magic : Nat
  blocksize : Nat
  addrlen : Nat
  rootdir : Nat
  blocks : Nat
  freehead : Nat
  freetail : Nat
  freeblocks : Nat

inductive Payload where
  | superblock (sb : SbFields)
  | rootdir
  | chain (next : Nat) (stream : List Nat)

/-- One `flush_block` call: target address and block contents. -/
structure Write where
  addr : Nat
  payload : Payload

/-- State of the `while (current < cfg.dev_blocks)` loop in `main`:
chain blocks flushed so far (in flush order), the in-memory chain block,
the `current` cursor and the `freeblocks` counter. -/
structure LoopState where
  chains : List ChainBlock
  cur : ChainBlock
  current : Nat
  freeblocks : Nat

/-- The free-space mapping loop of mkfs.c `main` (fuel-indexed; each
iteration advances `current` by one, so any fuel at least `B - current`
runs the loop to completion):

    while (current < cfg.dev_blocks) {
        if (chain_get_free_slot(&cfg, chain) < 0) {
            chain->b.chain.next = current;
            flush_block(&cfg, chain);
            chain = allocate_chain(&cfg, current++);
            freeblocks++;
            continue;
        }
        chain_set_slot(&cfg, chain, current++);
        freeblocks++;
    }

`chain_set_slot` returns `none` exactly when `chain_get_free_slot` does. -/
def mapFreeLoop (blocksize addrlen B : Nat) : LoopState → Nat → LoopState
  | st, 0 => st
  | st, fuel + 1 =>
      if st.current < B then
        match chain_set_slot blocksize addrlen st.cur.stream st.current with
        | none =>
            mapFreeLoop blocksize addrlen B
              { chains := st.chains ++ [{ st.cur with next := st.current }]
                cur := allocate_chain blocksize st.current
                current := st.current + 1
                freeblocks := st.freeblocks + 1 } fuel
        | some stream' =>
            mapFreeLoop blocksize addrlen B
              { st with
                cur := { st.cur with stream := stream' }
                current := st.current + 1
                freeblocks := st.freeblocks + 1 } fuel
      else st

/-- The 64-bit shift in the clamping test of mkfs.c `main`,
`(uint64_t) 1 << (cfg.addrlen * 8)`, read modulo `2^64`.  For
`addrlen = 8` the C shift count equals the operand width, which is
undefined behaviour in C; the modular reading yields 0 there (an x86
host, which masks the shift count, yields 1 instead — both differ from
the mathematical `2^64`). -/
def shl64 (x k : Nat) : Nat := (x <<< k) % 2 ^ 64

/-- The clamping step of mkfs.c `main`:

    if (cfg.dev_blocks > (uint64_t) 1 << (cfg.addrlen * 8)) {
        printf(_("warning: address length not sufficient!\n"));
        cfg.dev_blocks = (uint64_t) 1 << (cfg.addrlen * 8);
    }
-/
def clampBlocks (addrlen devBlocks : Nat) : Nat :=
  if devBlocks > shl64 1 (addrlen * 8) then shl64 1 (addrlen * 8) else devBlocks

/-- Whether the clamping warning is printed. -/
def clampWarns (addrlen devBlocks : Nat) : Prop :=
  devBlocks > shl64 1 (addrlen * 8)

instance (addrlen devBlocks : Nat) : Decidable (clampWarns addrlen devBlocks) := by
  unfold clampWarns
  infer_instance

inductive MkfsError where
  | tooSmall
deriving DecidableEq

/-- Final superblock values and the chain blocks of the finished volume
(in chain order: the flushed blocks followed by the final one). -/
structure FormatResult where
  rootdir : Nat
  blocks : Nat
  freehead : Nat
  freetail : Nat
  freeblocks : Nat
  chains : List ChainBlock

/-- mkfs.c `main` after option parsing and `open_device`: the too-small
check, the clamp, the superblock/root-directory/chain writes and the
free-space loop.  Returns the ordered write trace and the outcome;
a failing run produces no writes. -/
def mkfs (blocksize addrlen devBlocks : Nat) :
    List Write × Except MkfsError FormatResult :=
  if devBlocks < MKLANYFS_MIN_BLOCKS then ([], .error .tooSmall)
  else
    let blocks := clampBlocks addrlen devBlocks
    let sb0 : SbFields :=
      ⟨LANYFS_TYPE_SB, LANYFS_SUPER_MAGIC, blocksize, addrlen, 0, blocks, 0, 0, 0⟩
    let chain0 := allocate_chain blocksize 2
    let st := mapFreeLoop blocksize addrlen blocks ⟨[], chain0, 3, 1⟩ devBlocks
    let chainsAll := st.chains ++ [st.cur]
    let sbF : SbFields :=
      { sb0 with rootdir := 1, freehead := 2, freetail := st.cur.addr,
                 freeblocks := st.freeblocks }
    (Write.mk 0 (.superblock sb0) :: Write.mk 1 .rootdir ::
       (chainsAll.map (fun c => Write.mk c.addr (.chain c.next c.stream)) ++
        [Write.mk 0 (.superblock sbF)]),
     .ok ⟨1, blocks, 2, st.cur.addr, st.freeblocks, chainsAll⟩)

/-- Content of the device at a given block address after a write trace:
the last write to that address wins. -/
def readDisk (writes : List Write) (a : Nat) : Option Payload :=
  (writes.reverse.find? (fun w => w.addr == a)).map (fun w => w.payload)

/-- Follow the free chain on the device from a given address, collecting
for each visited chain block its address and its non-zero slots, stopping
when `next = 0` or when the address does not hold a chain block. -/
def chainWalk (blocksize addrlen : Nat) (disk : Nat → Option Payload) :
    Nat → Nat → List (Nat × List Nat)
  | _, 0 => []
  | a, fuel + 1 =>
      match disk a with
      | some (.chain next stream) =>
          (a, collectSlots blocksize addrlen stream) ::
            (if next = 0 then [] else chainWalk blocksize addrlen disk next fuel)
      | _ => []

/-! ## The free-space loop invariant -/

/-- A chain block whose stream consists of the packed non-zero values
`vals` followed by zeros. -/
def ChainAbs (blocksize addrlen : Nat) (c : ChainBlock) (vals : List Nat) : Prop :=
  c.stream = streamBytes addrlen (chainStreamLength blocksize) vals ∧
  vals.length ≤ chain_count_slots blocksize addrlen ∧
  ∀ v ∈ vals, 0 < v ∧ v < 2 ^ (8 * addrlen)

/-- The `next` fields thread the listed blocks into a singly-linked list,
the last one pointing at `t`. -/
def linkedTo : List ChainBlock → Nat → Prop
  | [], _ => True
  | c :: rest, t =>
      (match rest with
       | [] => c.next = t
       | c' :: _ => c.next = c'.addr) ∧ linkedTo rest t

/-- Addresses of all chain blocks of a loop state, flushed ones first,
current block last. -/
def chainAddrs (st : LoopState) : List Nat :=
  st.chains.map (fun c => c.addr) ++ [st.cur.addr]

/-- Invariant maintained by `mapFreeLoop`, relating the concrete byte-level
loop state to the abstract per-chain value lists `valss` (for flushed
chains) and `curVals` (for the current one). -/
structure LoopInv (blocksize addrlen : Nat) (st : LoopState)
    (valss : List (List Nat)) (curVals : List Nat) : Prop where
  abs : List.Forall₂
    (fun c vs => ChainAbs blocksize addrlen c vs ∧
      vs.length = chain_count_slots blocksize addrlen) st.chains valss
  curAbs : ChainAbs blocksize addrlen st.cur curVals
  curNext : st.cur.next = 0
  links : linkedTo st.chains st.cur.addr
  mono : List.Chain' (· < ·) (chainAddrs st)
  headAddr : (chainAddrs st).head? = some 2
  addrLt : ∀ x ∈ chainAddrs st, 2 ≤ x ∧ x < st.current
  curGe : 3 ≤ st.current
  slots : valss.flatten ++ curVals =
    (List.range' 3 (st.current - 3)).filter (fun x => decide (x ∉ chainAddrs st))
  freeCount : st.freeblocks =
    st.chains.length + 1 + (valss.flatten.length + curVals.length)
  total : st.chains.length + 1 + (valss.flatten.length + curVals.length) =
    st.current - 2

/-! ## The finished volume -/

/-- The free-space loop state at the end of `main` (first chain block at
address 2, cursor starting at 3, `freeblocks` already 1 for the first
chain block; `devBlocks` is ample fuel since each iteration advances the
cursor). -/
def mkfsState (blocksize a devB : Nat) : LoopState :=
  mapFreeLoop blocksize a (clampBlocks a devB) ⟨[], allocate_chain blocksize 2, 3, 1⟩ devB

/-! ## detectfs.lanyfs

detectfs.c reads `DETECTFS_SB_SIZE` bytes into a `struct lanyfs_sb` and
then inspects the fields.  On a little-endian host the struct fields read
the raw bytes at their struct offsets (lanyfs.h, natural alignment):
`type` at 0, `wrcnt` at 2, `magic` at 4, `major` at 8, `minor` at 10,
`blocksize` at 12, `addrlen` at 14, `rootdir` at 16, `blocks` at 24,
`freehead` at 32, `freetail` at 40, `freeblocks` at 48. -/

def DETECTFS_SB_SIZE : Nat := 512

def sbFieldByte (buf : List Nat) (off : Nat) : Nat := buf.getD off 0

def sbField16 (buf : List Nat) (off : Nat) : Nat := leDecode ((buf.drop off).take 2)

def sbField32 (buf : List Nat) (off : Nat) : Nat := leDecode ((buf.drop off).take 4)

def sbField64 (buf : List Nat) (off : Nat) : Nat := leDecode ((buf.drop off).take 8)

/-- Fields printed by detectfs once the checks pass. -/
structure DetectedSb where
  wrcnt : Nat
  major : Nat
  minor : Nat
  addrlen : Nat
  blocksize : Nat
  rootdir : Nat
  blocks : Nat
  freehead : Nat
  freetail : Nat
  freeblocks : Nat

inductive DetectError where
  | typeMismatch
  | magicMismatch
deriving DecidableEq

/-- detectfs.c `main`, checks in program order:

    if (sb->type != LANYFS_TYPE_SB)
        show_error(_("block type mismatch"));
    ...
    if (sb->magic != LANYFS_SUPER_MAGIC)
        show_error(_("magic mismatch"));

`show_error` terminates the process, so a type mismatch reports before any
further field is interpreted. -/
def detect (buf : List Nat) : Except DetectError DetectedSb :=
  if sbFieldByte buf 0 ≠ LANYFS_TYPE_SB then .error .typeMismatch
  else if sbField32 buf 4 ≠ LANYFS_SUPER_MAGIC then .error .magicMismatch
  else .ok ⟨sbField16 buf 2, sbFieldByte buf 8, sbFieldByte buf 10, sbFieldByte buf 14,
    sbFieldByte buf 12, sbField64 buf 16, sbField64 buf 24, sbField64 buf 32,
    sbField64 buf 40, sbField64 buf 48⟩

/-- The recorded `freeblocks` of a formatted device, when formatting
succeeds. -/
def mkfsFreeblocks (blocksize a devB : Nat) : Option Nat :=
  match (mkfs blocksize a devB).2 with
  | .ok r => some r.freeblocks
  | .error _ => none

/-- The number of slots actually filled across all chain blocks of a
formatted device, when formatting succeeds. -/
def mkfsFilledSlots (blocksize a devB : Nat) : Option Nat :=
  match (mkfs blocksize a devB).2 with
  | .ok r => some ((r.chains.map (fun c => (collectSlots blocksize a c.stream).length)).sum)
  | .error _ => none

/-! ## Theorems -/

@[simp] theorem leEncode_length (len n : Nat) : (leEncode len n).length = len := by
  induction len generalizing n with
  | zero => rfl
  | succ k ih => simp [leEncode, ih]

theorem leEncode_bytes_lt (len n : Nat) : ∀ b ∈ leEncode len n, b < 256 := by
  induction len generalizing n with
  | zero => intro b hb; simp [leEncode] at hb
  | succ k ih =>
      intro b hb
      simp only [leEncode, List.mem_cons] at hb
      rcases hb with h | h
      · exact h ▸ Nat.mod_lt _ (by norm_num)
      · exact ih _ b h

theorem leDecode_leEncode (len n : Nat) :
    leDecode (leEncode len n) = n % 256 ^ len := by
  induction len generalizing n with
  | zero => simp [leEncode, leDecode, Nat.mod_one]
  | succ k ih =>
      have h256 : (0:Nat) < 256 := by norm_num
      calc leDecode (leEncode (k+1) n)
          = n % 256 + 256 * (n / 256 % 256 ^ k) := by simp [leEncode, leDecode, ih]
        _ = n % (256 * 256 ^ k) := by
              rw [Nat.mod_mul]
        _ = n % 256 ^ (k+1) := by ring_nf

theorem leDecode_lt (bs : List Nat) (hb : ∀ b ∈ bs, b < 256) :
    leDecode bs < 256 ^ bs.length := by
  induction bs with
  | nil => simp [leDecode]
  | cons b rest ih =>
      have hblt : b < 256 := hb b (by simp)
      have hrest : leDecode rest < 256 ^ rest.length := ih (fun x hx => hb x (by simp [hx]))
      calc leDecode (b :: rest) = b + 256 * leDecode rest := rfl
        _ < 256 + 256 * leDecode rest := by omega
        _ = 256 * (leDecode rest + 1) := by ring
        _ ≤ 256 * 256 ^ rest.length := by
              have : leDecode rest + 1 ≤ 256 ^ rest.length := hrest
              exact Nat.mul_le_mul_left _ this
        _ = 256 ^ (b :: rest).length := by simp [List.length_cons]; ring

theorem leEncode_leDecode (bs : List Nat) (hb : ∀ b ∈ bs, b < 256) :
    leEncode bs.length (leDecode bs) = bs := by
  induction bs with
  | nil => rfl
  | cons b rest ih =>
      have hblt : b < 256 := hb b (by simp)
      have h1 : (b + 256 * leDecode rest) % 256 = b := by
        rw [Nat.add_mul_mod_self_left, Nat.mod_eq_of_lt hblt]
      have h2 : (b + 256 * leDecode rest) / 256 = leDecode rest := by
        rw [Nat.add_mul_div_left _ _ (by norm_num : (0:Nat) < 256),
            Nat.div_eq_of_lt hblt, Nat.zero_add]
      simp only [List.length_cons, leEncode, leDecode, h1, h2]
      exact congrArg (b :: ·) (ih (fun x hx => hb x (by simp [hx])))

@[simp] theorem leDecode_replicate_zero (k : Nat) :
    leDecode (List.replicate k 0) = 0 := by
  induction k with
  | zero => rfl
  | succ n ih => simp [List.replicate, leDecode, ih]

theorem bswap16_bswap16 (n : Nat) (h : n < 2 ^ 16) : bswap16 (bswap16 n) = n := by
  obtain ⟨q, r, hq, hr, hn⟩ : ∃ q r, q < 256 ∧ r < 256 ∧ n = 256 * q + r :=
    ⟨n / 256, n % 256, by omega, by omega, by omega⟩
  subst hn
  unfold bswap16
  have e1 : (256 * q + r) % 256 = r := by omega
  have e2 : (256 * q + r) / 256 = q := by omega
  rw [e1, e2, Nat.mod_eq_of_lt hq]
  have e3 : (r * 256 + q) % 256 = q := by omega
  have e4 : (r * 256 + q) / 256 = r := by omega
  rw [e3, e4]
  omega

theorem bswap64_lt (n : Nat) : bswap64 n < 2 ^ 64 := by
  have hb : ∀ b ∈ (leEncode 8 n).reverse, b < 256 := by
    intro b hb
    exact leEncode_bytes_lt 8 n b (List.mem_reverse.mp hb)
  have hlen : ((leEncode 8 n).reverse).length = 8 := by simp
  have := leDecode_lt _ hb
  rw [hlen] at this
  calc bswap64 n < 256 ^ 8 := this
    _ = 2 ^ 64 := by norm_num

theorem bswap64_bswap64 (n : Nat) (h : n < 2 ^ 64) : bswap64 (bswap64 n) = n := by
  have hb : ∀ b ∈ (leEncode 8 n).reverse, b < 256 := by
    intro b hb
    exact leEncode_bytes_lt 8 n b (List.mem_reverse.mp hb)
  have hlen : ((leEncode 8 n).reverse).length = 8 := by simp
  have h1 : leEncode 8 (leDecode ((leEncode 8 n).reverse)) = (leEncode 8 n).reverse := by
    conv_lhs => rw [show (8:Nat) = ((leEncode 8 n).reverse).length from hlen.symm]
    exact leEncode_leDecode _ hb
  unfold bswap64
  rw [h1, List.reverse_reverse, leDecode_leEncode]
  have h2 : (256:Nat) ^ 8 = 2 ^ 64 := by norm_num
  rw [h2]
  exact Nat.mod_eq_of_lt h

/-! ### Characterisation of the free-slot scan -/

theorem findFreeSlot_some (blocksize addrlen : Nat) (stream : List Nat) :
    ∀ remaining i j, findFreeSlot blocksize addrlen stream i remaining = some j →
      i ≤ j ∧ j < i + remaining ∧ chain_get_slot blocksize addrlen stream j = 0 ∧
      ∀ k, i ≤ k → k < j → chain_get_slot blocksize addrlen stream k ≠ 0 := by
  intro remaining
  induction remaining with
  | zero => intro i j h; simp [findFreeSlot] at h
  | succ m ih =>
      intro i j h
      by_cases h0 : chain_get_slot blocksize addrlen stream i = 0
      · simp [findFreeSlot, h0] at h
        subst h
        exact ⟨le_refl _, by omega, h0, fun k hk1 hk2 => absurd (by omega : i ≤ k ∧ k < i) (by omega)⟩
      · simp [findFreeSlot, h0] at h
        obtain ⟨h1, h2, h3, h4⟩ := ih (i + 1) j h
        refine ⟨by omega, by omega, h3, fun k hk1 hk2 => ?_⟩
        rcases Nat.eq_or_lt_of_le hk1 with rfl | hlt
        · exact h0
        · exact h4 k hlt hk2

theorem findFreeSlot_none (blocksize addrlen : Nat) (stream : List Nat) :
    ∀ remaining i, findFreeSlot blocksize addrlen stream i remaining = none →
      ∀ k, i ≤ k → k < i + remaining → chain_get_slot blocksize addrlen stream k ≠ 0 := by
  intro remaining
  induction remaining with
  | zero => intro i _ k hk1 hk2; omega
  | succ m ih =>
      intro i h k hk1 hk2
      by_cases h0 : chain_get_slot blocksize addrlen stream i = 0
      · simp [findFreeSlot, h0] at h
      · simp [findFreeSlot, h0] at h
        rcases Nat.eq_or_lt_of_le hk1 with rfl | hlt
        · exact h0
        · exact ih (i + 1) h k hlt (by omega)

theorem chain_get_free_slot_some (blocksize addrlen : Nat) (stream : List Nat) (j : Nat)
    (h : chain_get_free_slot blocksize addrlen stream = some j) :
    j < chain_count_slots blocksize addrlen ∧
    chain_get_slot blocksize addrlen stream j = 0 ∧
    ∀ k < j, chain_get_slot blocksize addrlen stream k ≠ 0 := by
  obtain ⟨_, h2, h3, h4⟩ := findFreeSlot_some blocksize addrlen stream _ 0 j h
  exact ⟨by omega, h3, fun k hk => h4 k (Nat.zero_le _) hk⟩

theorem chain_get_free_slot_none (blocksize addrlen : Nat) (stream : List Nat)
    (h : chain_get_free_slot blocksize addrlen stream = none) :
    ∀ k < chain_count_slots blocksize addrlen,
      chain_get_slot blocksize addrlen stream k ≠ 0 := by
  intro k hk
  exact findFreeSlot_none blocksize addrlen stream _ 0 h k (Nat.zero_le _) (by omega)

theorem two_pow_mul8 (a : Nat) : 2 ^ (8 * a) = 256 ^ a := by
  rw [pow_mul]
  norm_num

theorem flatMap_leEncode_length (addrlen : Nat) (vals : List Nat) :
    (vals.flatMap (leEncode addrlen)).length = addrlen * vals.length := by
  induction vals with
  | nil => simp
  | cons v rest ih => simp [List.flatMap_cons, ih]; ring

theorem take_drop_flatMap_leEncode (addrlen : Nat) :
    ∀ (vals : List Nat) (i : Nat), i < vals.length →
      ((vals.flatMap (leEncode addrlen)).drop (i * addrlen)).take addrlen =
        leEncode addrlen (vals.getD i 0) := by
  intro vals
  induction vals with
  | nil => intro i hi; simp at hi
  | cons v rest ih =>
      intro i hi
      cases i with
      | zero =>
          simp only [Nat.zero_mul, List.drop_zero, List.flatMap_cons, List.getD_cons_zero]
          rw [List.take_append_eq_append_take]
          have h1 : (leEncode addrlen v).take addrlen = leEncode addrlen v := by
            apply List.take_of_length_le
            simp
          have h2 : addrlen - (leEncode addrlen v).length = 0 := by simp
          rw [h1, h2, List.take_zero, List.append_nil]
      | succ i =>
          simp only [List.flatMap_cons, List.getD_cons_succ]
          rw [List.drop_append_eq_append_drop]
          have h1 : (leEncode addrlen v).drop ((i + 1) * addrlen) = [] := by
            apply List.drop_eq_nil_of_le
            simp [Nat.succ_mul]
          have h2 : (i + 1) * addrlen - (leEncode addrlen v).length = i * addrlen := by
            simp [Nat.succ_mul]
          rw [h1, h2, List.nil_append]
          exact ih i (by simpa using hi)

theorem chain_get_slot_streamBytes_lt (blocksize a L : Nat) (vals : List Nat) (i : Nat)
    (hi : i < vals.length) (hlen : vals.length ≤ chain_count_slots blocksize a)
    (hv : ∀ v ∈ vals, v < 2 ^ (8 * a)) :
    chain_get_slot blocksize a (streamBytes a L vals) i = vals.getD i 0 := by
  have hiS : i < chain_count_slots blocksize a := lt_of_lt_of_le hi hlen
  unfold chain_get_slot streamBytes
  rw [if_neg (by omega)]
  rw [List.drop_append_eq_append_drop]
  have hflat := flatMap_leEncode_length a vals
  have hdroplen : ((vals.flatMap (leEncode a)).drop (i * a)).length = a * vals.length - i * a := by
    simp [hflat]
  rw [List.take_append_eq_append_take]
  have h2 : a - ((vals.flatMap (leEncode a)).drop (i * a)).length = 0 := by
    rw [hdroplen]
    have : (i + 1) * a ≤ vals.length * a := Nat.mul_le_mul_right a hi
    have h3 : i * a + a ≤ a * vals.length := by
      calc i * a + a = (i + 1) * a := by ring
        _ ≤ vals.length * a := this
        _ = a * vals.length := Nat.mul_comm _ _
    omega
  rw [h2, List.take_zero, List.append_nil,
      take_drop_flatMap_leEncode a vals i hi, leDecode_leEncode]
  have hmem : vals.getD i 0 ∈ vals := by
    rw [List.getD_eq_getElem vals 0 hi]
    exact List.getElem_mem hi
  have := hv _ hmem
  rw [← two_pow_mul8]
  exact Nat.mod_eq_of_lt this

theorem chain_get_slot_streamBytes_ge (blocksize a L : Nat) (vals : List Nat) (i : Nat)
    (hi : vals.length ≤ i) :
    chain_get_slot blocksize a (streamBytes a L vals) i = 0 := by
  by_cases hS : i ≥ chain_count_slots blocksize a
  · simp [chain_get_slot, hS]
  · unfold chain_get_slot streamBytes
    rw [if_neg hS]
    have hflat := flatMap_leEncode_length a vals
    have hge : (vals.flatMap (leEncode a)).length ≤ i * a := by
      rw [hflat, Nat.mul_comm i a]
      exact Nat.mul_le_mul_left a hi
    rw [List.drop_append_eq_append_drop, List.drop_eq_nil_of_le hge, List.nil_append,
        List.drop_replicate, List.take_replicate, leDecode_replicate_zero]

theorem chain_get_free_slot_streamBytes (blocksize a L : Nat) (vals : List Nat)
    (hlen : vals.length ≤ chain_count_slots blocksize a)
    (hv : ∀ v ∈ vals, 0 < v ∧ v < 2 ^ (8 * a)) :
    chain_get_free_slot blocksize a (streamBytes a L vals) =
      if vals.length < chain_count_slots blocksize a then some vals.length else none := by
  cases hres : chain_get_free_slot blocksize a (streamBytes a L vals) with
  | none =>
      have h := chain_get_free_slot_none blocksize a _ hres
      rw [if_neg]
      intro hlt
      exact h vals.length hlt
        (chain_get_slot_streamBytes_ge blocksize a L vals vals.length (le_refl _))
  | some j =>
      obtain ⟨hjS, hj0, hjmin⟩ := chain_get_free_slot_some blocksize a _ j hres
      have hge : vals.length ≤ j := by
        by_contra hlt
        push_neg at hlt
        have heq := chain_get_slot_streamBytes_lt blocksize a L vals j hlt hlen
          (fun v hv' => (hv v hv').2)
        have hmem : vals.getD j 0 ∈ vals := by
          rw [List.getD_eq_getElem vals 0 hlt]
          exact List.getElem_mem hlt
        have := (hv _ hmem).1
        omega
      have hle : j ≤ vals.length := by
        by_contra hgt
        push_neg at hgt
        exact hjmin vals.length hgt
          (chain_get_slot_streamBytes_ge blocksize a L vals vals.length (le_refl _))
      have hj : j = vals.length := le_antisymm hle hge
      subst hj
      rw [if_pos hjS]

theorem writeBytes_streamBytes (a L : Nat) (vals : List Nat) (v : Nat)
    (h1 : a * (vals.length + 1) ≤ L) :
    writeBytes (streamBytes a L vals) (vals.length * a) (leEncode a v) =
      streamBytes a L (vals ++ [v]) := by
  unfold writeBytes streamBytes
  have hflat := flatMap_leEncode_length a vals
  have htake : (vals.flatMap (leEncode a) ++
      List.replicate (L - a * vals.length) 0).take (vals.length * a) = vals.flatMap (leEncode a) := by
    rw [Nat.mul_comm, ← hflat]
    exact List.take_left _ _
  have hdrop : (vals.flatMap (leEncode a) ++
      List.replicate (L - a * vals.length) 0).drop (vals.length * a + (leEncode a v).length) =
      List.replicate (L - a * (vals.length + 1)) 0 := by
    rw [leEncode_length, Nat.mul_comm, ← hflat, List.drop_append, List.drop_replicate]
    congr 1
    rw [hflat]
    have : a * (vals.length + 1) = a * vals.length + a := by ring
    omega
  rw [htake, hdrop, List.flatMap_append]
  simp [List.append_assoc]

theorem collectSlots_streamBytes (blocksize a L : Nat) (vals : List Nat)
    (hlen : vals.length ≤ chain_count_slots blocksize a)
    (hv : ∀ v ∈ vals, 0 < v ∧ v < 2 ^ (8 * a)) :
    collectSlots blocksize a (streamBytes a L vals) = vals := by
  unfold collectSlots
  have hsplit : List.range (chain_count_slots blocksize a) =
      List.range' 0 vals.length ++
        List.range' vals.length (chain_count_slots blocksize a - vals.length) := by
    rw [List.range_eq_range']
    have h0 : chain_count_slots blocksize a =
        (chain_count_slots blocksize a - vals.length) + vals.length := by omega
    conv_lhs => rw [h0]
    rw [← List.range'_append 0 vals.length (chain_count_slots blocksize a - vals.length) 1]
    simp
  rw [hsplit, List.map_append, List.filter_append]
  have hfirst : (List.range' 0 vals.length).map (chain_get_slot blocksize a (streamBytes a L vals)) = vals := by
    apply List.ext_getElem
    · simp
    · intro n h1 h2
      rw [List.getElem_map, List.getElem_range']
      simp only [Nat.zero_add, Nat.one_mul]
      rw [chain_get_slot_streamBytes_lt blocksize a L vals n h2 hlen
        (fun v hv' => (hv v hv').2)]
      exact List.getD_eq_getElem vals 0 h2
  have hsecond : ((List.range' vals.length (chain_count_slots blocksize a - vals.length)).map
      (chain_get_slot blocksize a (streamBytes a L vals))).filter (fun x => decide (x ≠ 0)) = [] := by
    rw [List.filter_eq_nil_iff]
    intro x hx
    rw [List.mem_map] at hx
    obtain ⟨m, hm, rfl⟩ := hx
    rw [List.mem_range'] at hm
    obtain ⟨i, _, rfl⟩ := hm
    rw [chain_get_slot_streamBytes_ge blocksize a L vals _ (by omega)]
    simp
  rw [hfirst, hsecond, List.append_nil, List.filter_eq_self.mpr]
  intro x hx
  have := (hv x hx).1
  simpa using Nat.pos_iff_ne_zero.mp this

theorem linkedTo_snoc (t : Nat) :
    ∀ (cs : List ChainBlock) (c : ChainBlock),
      linkedTo cs c.addr → c.next = t → linkedTo (cs ++ [c]) t := by
  intro cs
  induction cs with
  | nil => intro c _ hc; exact ⟨hc, trivial⟩
  | cons x rest ih =>
      intro c h hc
      obtain ⟨h1, h2⟩ := h
      cases rest with
      | nil => exact ⟨h1, ih c h2 hc⟩
      | cons y ys => exact ⟨h1, ih c h2 hc⟩

@[simp] theorem streamBytes_nil (a L : Nat) : streamBytes a L [] = List.replicate L 0 := by
  simp [streamBytes]

/-! ### Unfolding equations for the loop -/

theorem mapFreeLoop_stop (blocksize a B : Nat) (st : LoopState) (fuel : Nat)
    (h : ¬ st.current < B) : mapFreeLoop blocksize a B st (fuel + 1) = st := by
  unfold mapFreeLoop
  rw [if_neg h]

theorem mapFreeLoop_rotate (blocksize a B : Nat) (st : LoopState) (fuel : Nat)
    (h : st.current < B)
    (hset : chain_set_slot blocksize a st.cur.stream st.current = none) :
    mapFreeLoop blocksize a B st (fuel + 1) =
      mapFreeLoop blocksize a B
        { chains := st.chains ++ [{ st.cur with next := st.current }]
          cur := allocate_chain blocksize st.current
          current := st.current + 1
          freeblocks := st.freeblocks + 1 } fuel := by
  conv_lhs => unfold mapFreeLoop
  rw [if_pos h, hset]

theorem mapFreeLoop_step (blocksize a B : Nat) (st : LoopState) (fuel : Nat)
    (stream' : List Nat) (h : st.current < B)
    (hset : chain_set_slot blocksize a st.cur.stream st.current = some stream') :
    mapFreeLoop blocksize a B st (fuel + 1) =
      mapFreeLoop blocksize a B
        { st with
          cur := { st.cur with stream := stream' }
          current := st.current + 1
          freeblocks := st.freeblocks + 1 } fuel := by
  conv_lhs => unfold mapFreeLoop
  rw [if_pos h, hset]

/-- `chain_set_slot` on an abstract stream: appends the encoded value when
a slot is free, fails when the block is full. -/
theorem chain_set_slot_streamBytes (blocksize a L : Nat) (vals : List Nat) (addr : Nat)
    (hlen : vals.length ≤ chain_count_slots blocksize a)
    (hv : ∀ v ∈ vals, 0 < v ∧ v < 2 ^ (8 * a))
    (haS : a * chain_count_slots blocksize a ≤ L) :
    chain_set_slot blocksize a (streamBytes a L vals) addr =
      if vals.length < chain_count_slots blocksize a then
        some (streamBytes a L (vals ++ [addr]))
      else none := by
  unfold chain_set_slot
  rw [chain_get_free_slot_streamBytes blocksize a L vals hlen hv]
  by_cases h : vals.length < chain_count_slots blocksize a
  · rw [if_pos h, if_pos h]
    have hle : a * (vals.length + 1) ≤ L := by
      calc a * (vals.length + 1) ≤ a * chain_count_slots blocksize a :=
            Nat.mul_le_mul_left a h
        _ ≤ L := haS
    show some (writeBytes (streamBytes a L vals) (vals.length * a) (leEncode a addr)) =
      some (streamBytes a L (vals ++ [addr]))
    rw [writeBytes_streamBytes a L vals addr hle]
  · rw [if_neg h, if_neg h]

theorem mul_slots_le_chainStreamLength (blocksize a : Nat) :
    a * chain_count_slots blocksize a ≤ chainStreamLength blocksize := by
  unfold chain_count_slots chainStreamLength
  rw [Nat.mul_comm]
  exact Nat.div_mul_le_self _ _

/-- The free-space loop preserves the invariant and drives `current` up to
`B` (given enough fuel). -/
theorem mapFreeLoop_inv (blocksize a B : Nat) (hB : B ≤ 2 ^ (8 * a)) :
    ∀ (fuel : Nat) (st : LoopState) (valss : List (List Nat)) (curVals : List Nat),
      LoopInv blocksize a st valss curVals →
      B ≤ st.current + fuel →
      ∃ valss' curVals',
        LoopInv blocksize a (mapFreeLoop blocksize a B st fuel) valss' curVals' ∧
        (mapFreeLoop blocksize a B st fuel).current = max B st.current := by
  intro fuel
  induction fuel with
  | zero =>
      intro st valss curVals hinv hfuel
      refine ⟨valss, curVals, hinv, ?_⟩
      show st.current = max B st.current
      exact (Nat.max_eq_right (by omega)).symm
  | succ m ih =>
      intro st valss curVals hinv hfuel
      by_cases hcur : st.current < B
      case neg =>
        rw [mapFreeLoop_stop blocksize a B st m hcur]
        refine ⟨valss, curVals, hinv, ?_⟩
        show st.current = max B st.current
        exact (Nat.max_eq_right (by omega)).symm
      case pos =>
        obtain ⟨hstream, hlenle, hvals⟩ := hinv.curAbs
        have haS := mul_slots_le_chainStreamLength blocksize a
        have hset := chain_set_slot_streamBytes blocksize a (chainStreamLength blocksize)
          curVals st.current hlenle hvals haS
        have hnotmem : st.current ∉ chainAddrs st := by
          intro hmem
          exact absurd (hinv.addrLt _ hmem).2 (lt_irrefl _)
        have hcurGe := hinv.curGe
        by_cases hfull : curVals.length < chain_count_slots blocksize a
        · -- a slot is free: the loop records `current` in the current chain
          rw [if_pos hfull] at hset
          rw [mapFreeLoop_step blocksize a B st m
            (streamBytes a (chainStreamLength blocksize) (curVals ++ [st.current])) hcur
            (by rw [hstream]; exact hset)]
          have hinv' : LoopInv blocksize a
              { st with
                cur := { st.cur with
                  stream := streamBytes a (chainStreamLength blocksize) (curVals ++ [st.current]) }
                current := st.current + 1
                freeblocks := st.freeblocks + 1 } valss (curVals ++ [st.current]) := by
            refine ⟨hinv.abs, ⟨rfl, by simp; omega, ?_⟩, hinv.curNext, hinv.links,
              hinv.mono, hinv.headAddr, ?_, by simp; omega, ?_, ?_, ?_⟩
            · intro v hv'
              rcases List.mem_append.mp hv' with h | h
              · exact hvals v h
              · have hveq : v = st.current := by simpa using h
                subst hveq
                exact ⟨by omega, by omega⟩
            · intro x hx
              have := hinv.addrLt x hx
              exact ⟨this.1, by simp; omega⟩
            · show valss.flatten ++ (curVals ++ [st.current]) =
                (List.range' 3 (st.current + 1 - 3)).filter
                  (fun x => decide (x ∉ chainAddrs st))
              have h1 : st.current + 1 - 3 = (st.current - 3) + 1 := by omega
              rw [h1, List.range'_concat]
              have h2 : 3 + 1 * (st.current - 3) = st.current := by omega
              rw [h2, List.filter_append]
              have h3 : List.filter (fun x => decide (x ∉ chainAddrs st)) [st.current] =
                  [st.current] := by
                simp [hnotmem]
              rw [h3, ← hinv.slots, List.append_assoc]
            · show st.freeblocks + 1 =
                st.chains.length + 1 + (valss.flatten.length + (curVals ++ [st.current]).length)
              have := hinv.freeCount
              simp only [List.length_append, List.length_cons, List.length_nil]
              omega
            · show st.chains.length + 1 +
                  (valss.flatten.length + (curVals ++ [st.current]).length) =
                st.current + 1 - 2
              have := hinv.total
              simp only [List.length_append, List.length_cons, List.length_nil]
              omega
          obtain ⟨valss', curVals', h1, h2⟩ := ih _ valss (curVals ++ [st.current]) hinv'
            (by show B ≤ st.current + 1 + m; omega)
          refine ⟨valss', curVals', h1, ?_⟩
          rw [h2]
          show max B (st.current + 1) = max B st.current
          rw [Nat.max_eq_left (by omega), Nat.max_eq_left (by omega)]
        · -- the current chain is full: rotate to a fresh chain block
          rw [if_neg hfull] at hset
          rw [mapFreeLoop_rotate blocksize a B st m hcur (by rw [hstream]; exact hset)]
          have hlenS : curVals.length = chain_count_slots blocksize a := by omega
          have haddrs : chainAddrs
              { chains := st.chains ++ [{ st.cur with next := st.current }]
                cur := allocate_chain blocksize st.current
                current := st.current + 1
                freeblocks := st.freeblocks + 1 : LoopState } =
              chainAddrs st ++ [st.current] := by
            simp [chainAddrs, allocate_chain]
          have hcurmem : st.cur.addr ∈ chainAddrs st :=
            List.mem_append_right _ (List.mem_singleton_self _)
          have hinv' : LoopInv blocksize a
              { chains := st.chains ++ [{ st.cur with next := st.current }]
                cur := allocate_chain blocksize st.current
                current := st.current + 1
                freeblocks := st.freeblocks + 1 } (valss ++ [curVals]) [] := by
            refine ⟨?_, ⟨by simp [allocate_chain], by simp, by simp⟩, rfl, ?_, ?_, ?_, ?_,
              by simp; omega, ?_, ?_, ?_⟩
            · exact List.rel_append hinv.abs
                (List.Forall₂.cons ⟨⟨hstream, hlenle, hvals⟩, hlenS⟩ List.Forall₂.nil)
            · show linkedTo (st.chains ++ [{ st.cur with next := st.current }]) st.current
              exact linkedTo_snoc st.current st.chains _ hinv.links rfl
            · rw [haddrs, List.chain'_append]
              refine ⟨hinv.mono, List.chain'_singleton _, ?_⟩
              intro x hx y hy
              have hx' : st.cur.addr = x := by
                have hlast : (chainAddrs st).getLast? = some st.cur.addr := by
                  unfold chainAddrs
                  exact List.getLast?_concat _
                rw [hlast] at hx
                simpa using hx
              have hy' : st.current = y := by simpa using hy
              subst hx'; subst hy'
              exact (hinv.addrLt _ hcurmem).2
            · rw [haddrs, List.head?_append, hinv.headAddr]
              rfl
            · intro x hx
              rw [haddrs] at hx
              rcases List.mem_append.mp hx with h | h
              · have := hinv.addrLt x h
                exact ⟨this.1, by simp; omega⟩
              · have hxeq : x = st.current := by simpa using h
                subst hxeq
                exact ⟨by omega, by simp⟩
            · rw [haddrs]
              show (valss ++ [curVals]).flatten ++ [] =
                (List.range' 3 (st.current + 1 - 3)).filter
                  (fun x => decide (x ∉ (chainAddrs st ++ [st.current])))
              rw [List.flatten_concat, List.append_nil]
              have h1 : st.current + 1 - 3 = (st.current - 3) + 1 := by omega
              rw [h1, List.range'_concat]
              have h2 : 3 + 1 * (st.current - 3) = st.current := by omega
              rw [h2, List.filter_append]
              have h3 : List.filter (fun x => decide (x ∉ (chainAddrs st ++ [st.current])))
                  [st.current] = [] := by
                simp
              have h4 : List.filter (fun x => decide (x ∉ (chainAddrs st ++ [st.current])))
                  (List.range' 3 (st.current - 3)) =
                  List.filter (fun x => decide (x ∉ chainAddrs st))
                    (List.range' 3 (st.current - 3)) := by
                apply List.filter_congr
                intro x hx
                rw [List.mem_range'] at hx
                obtain ⟨i, hi, rfl⟩ := hx
                rw [decide_eq_decide]
                simp only [List.mem_append, List.mem_singleton]
                constructor
                · intro h hc
                  exact h (Or.inl hc)
                · intro h hc
                  rcases hc with hc | hc
                  · exact h hc
                  · omega
              rw [h3, h4, List.append_nil, ← hinv.slots]
            · show st.freeblocks + 1 =
                (st.chains ++ [{ st.cur with next := st.current }]).length + 1 +
                  ((valss ++ [curVals]).flatten.length + ([] : List Nat).length)
              have := hinv.freeCount
              rw [List.flatten_concat]
              simp only [List.length_append, List.length_cons, List.length_nil]
              omega
            · show (st.chains ++ [{ st.cur with next := st.current }]).length + 1 +
                  ((valss ++ [curVals]).flatten.length + ([] : List Nat).length) =
                st.current + 1 - 2
              have := hinv.total
              rw [List.flatten_concat]
              simp only [List.length_append, List.length_cons, List.length_nil]
              omega
          obtain ⟨valss', curVals', h1, h2⟩ := ih _ (valss ++ [curVals]) [] hinv'
            (by show B ≤ st.current + 1 + m; omega)
          refine ⟨valss', curVals', h1, ?_⟩
          rw [h2]
          show max B (st.current + 1) = max B st.current
          rw [Nat.max_eq_left (by omega), Nat.max_eq_left (by omega)]

/-- The loop's entry state (`root` flushed, first chain block allocated at
address 2, `current = 3`, `freeblocks = 1`) satisfies the invariant. -/
theorem loopInv_init (blocksize a : Nat) :
    LoopInv blocksize a ⟨[], allocate_chain blocksize 2, 3, 1⟩ [] [] := by
  refine ⟨List.Forall₂.nil, ⟨by simp [allocate_chain], by simp, by simp⟩, rfl, trivial,
    ?_, rfl, ?_, le_refl _, rfl, rfl, rfl⟩
  · exact List.chain'_singleton _
  · intro x hx
    have hx2 : x = 2 := by simpa [chainAddrs, allocate_chain] using hx
    subst hx2
    exact ⟨le_refl _, (by norm_num : (2:Nat) < 3)⟩

theorem clampBlocks_le_pow (a devB : Nat) (ha8 : a ≤ 8) (hd : 1 ≤ devB) :
    clampBlocks a devB ≤ 2 ^ (8 * a) := by
  unfold clampBlocks shl64
  rw [Nat.shiftLeft_eq, Nat.one_mul, Nat.mul_comm a 8]
  by_cases h8 : a = 8
  · subst h8
    have h64 : (2:Nat) ^ (8 * 8) % 2 ^ 64 = 0 := by norm_num
    rw [h64, if_pos (show devB > 0 from hd)]
    exact Nat.zero_le _
  · have hlt : 2 ^ (8 * a) < 2 ^ 64 := by
      apply Nat.pow_lt_pow_right (by norm_num)
      omega
    rw [Nat.mod_eq_of_lt hlt]
    by_cases h : devB > 2 ^ (8 * a)
    · rw [if_pos h]
    · rw [if_neg h]
      omega

theorem clampBlocks_le_dev (a devB : Nat) : clampBlocks a devB ≤ devB := by
  unfold clampBlocks
  by_cases h : devB > shl64 1 (a * 8)
  · rw [if_pos h]; omega
  · rw [if_neg h]

/-- In a write list with pairwise distinct addresses, `find?` by address
returns the listed write. -/
theorem find?_addr_unique :
    ∀ (ws : List Write) (w : Write) (ad : Nat), w.addr = ad →
      (ws.map (fun x => x.addr)).Nodup → w ∈ ws →
      ws.find? (fun x => x.addr == ad) = some w := by
  intro ws
  induction ws with
  | nil => intro w ad _ _ hmem; simp at hmem
  | cons x rest ih =>
      intro w ad had hnodup hmem
      rw [List.map_cons, List.nodup_cons] at hnodup
      by_cases hx : x.addr = ad
      · have hw : w = x := by
          rcases List.mem_cons.mp hmem with h | h
          · exact h
          · exfalso
            apply hnodup.1
            rw [List.mem_map]
            exact ⟨w, h, by omega⟩
        subst hw
        rw [List.find?_cons_of_pos _ (by simpa using hx)]
      · have hw : w ≠ x := fun h => hx (h ▸ had)
        have hmem' : w ∈ rest := by
          rcases List.mem_cons.mp hmem with h | h
          · exact absurd h hw
          · exact h
        rw [List.find?_cons_of_neg _ (by simpa using hx)]
        exact ih w ad had hnodup.2 hmem'

/-- Reading back a chain block from the mkfs write trace. -/
theorem readDisk_mkfs_trace (w0 w1 wF : Write) (cs : List ChainBlock) (c : ChainBlock)
    (hmem : c ∈ cs) (hnodup : (cs.map (fun x => x.addr)).Nodup)
    (h0 : wF.addr ≠ c.addr) :
    readDisk (w0 :: w1 ::
        (cs.map (fun x => Write.mk x.addr (.chain x.next x.stream)) ++ [wF])) c.addr =
      some (.chain c.next c.stream) := by
  unfold readDisk
  rw [List.reverse_cons, List.reverse_cons, List.reverse_append]
  have hrev : ([wF].reverse : List Write) = [wF] := rfl
  rw [hrev]
  have hfind : ((([wF] ++ (cs.map (fun x => Write.mk x.addr (.chain x.next x.stream))).reverse)
      ++ [w1]) ++ [w0]).find? (fun w => w.addr == c.addr) =
      some (Write.mk c.addr (.chain c.next c.stream)) := by
    rw [List.find?_append, List.find?_append, List.find?_append]
    have h1 : ([wF].find? (fun w => w.addr == c.addr)) = none := by
      simp [List.find?_cons, h0]
    have h2 : ((cs.map (fun x => Write.mk x.addr (.chain x.next x.stream))).reverse.find?
        (fun w => w.addr == c.addr)) = some (Write.mk c.addr (.chain c.next c.stream)) := by
      have hnodup2 : (((cs.map (fun x => Write.mk x.addr (.chain x.next x.stream))).reverse).map
          (fun x => x.addr)).Nodup := by
        have hmm : ((cs.map (fun x => Write.mk x.addr (.chain x.next x.stream))).map
            (fun x => x.addr)) = cs.map (fun x => x.addr) := by
          rw [List.map_map]
          rfl
        rw [List.map_reverse, List.nodup_reverse, hmm]
        exact hnodup
      exact find?_addr_unique _ ⟨c.addr, .chain c.next c.stream⟩ c.addr rfl hnodup2
        (by rw [List.mem_reverse, List.mem_map]; exact ⟨c, hmem, rfl⟩)
    rw [h1, h2]
    rfl
  rw [List.append_assoc, List.append_assoc] at hfind ⊢
  rw [hfind]
  rfl

/-- One step of the on-disk walk at an address holding a chain block. -/
theorem chainWalk_chain (blocksize a : Nat) (disk : Nat → Option Payload)
    (ad f next stream) (h : disk ad = some (.chain next stream)) :
    chainWalk blocksize a disk ad (f + 1) =
      (ad, collectSlots blocksize a stream) ::
        (if next = 0 then [] else chainWalk blocksize a disk next f) := by
  conv_lhs => unfold chainWalk
  rw [h]

/-- Walking a correctly linked, on-disk chain visits exactly its blocks in
order and collects each block's non-zero slots. -/
theorem chainWalk_linked (blocksize a : Nat) (disk : Nat → Option Payload) :
    ∀ (rest : List ChainBlock) (c0 : ChainBlock) (fuel : Nat),
      (∀ c ∈ c0 :: rest, disk c.addr = some (.chain c.next c.stream)) →
      linkedTo (c0 :: rest) 0 →
      (∀ c ∈ c0 :: rest, 0 < c.addr) →
      rest.length < fuel →
      chainWalk blocksize a disk c0.addr fuel =
        (c0 :: rest).map (fun c => (c.addr, collectSlots blocksize a c.stream)) := by
  intro rest
  induction rest with
  | nil =>
      intro c0 fuel hdisk hlink hpos hfuel
      obtain ⟨f, rfl⟩ : ∃ f, fuel = f + 1 := ⟨fuel - 1, by omega⟩
      rw [chainWalk_chain blocksize a disk c0.addr f c0.next c0.stream (hdisk c0 (by simp))]
      obtain ⟨h0, -⟩ := hlink
      rw [if_pos h0]
      rfl
  | cons c1 rest' ih =>
      intro c0 fuel hdisk hlink hpos hfuel
      obtain ⟨f, rfl⟩ : ∃ f, fuel = f + 1 := ⟨fuel - 1, by omega⟩
      rw [chainWalk_chain blocksize a disk c0.addr f c0.next c0.stream (hdisk c0 (by simp))]
      obtain ⟨h0, hlink'⟩ := hlink
      have hne : c0.next ≠ 0 := by
        rw [h0]
        have := hpos c1 (by simp)
        omega
      rw [if_neg hne, h0]
      rw [ih c1 f (fun c hc => hdisk c (List.mem_cons_of_mem _ hc)) hlink'
        (fun c hc => hpos c (List.mem_cons_of_mem _ hc)) (by simpa using hfuel)]
      rfl

/-- Pointwise collection of packed chains. -/
theorem map_collect_of_forall₂ (blocksize a : Nat) :
    ∀ (cs : List ChainBlock) (vs : List (List Nat)),
      List.Forall₂ (ChainAbs blocksize a) cs vs →
      cs.map (fun c => collectSlots blocksize a c.stream) = vs := by
  intro cs vs h
  induction h with
  | nil => rfl
  | cons hR _ ih =>
      obtain ⟨hstream, hlen, hv⟩ := hR
      rw [List.map_cons, ih, hstream,
        collectSlots_streamBytes blocksize a (chainStreamLength blocksize) _ hlen hv]

theorem mkfs_eq (blocksize a devB : Nat) (hdev : MKLANYFS_MIN_BLOCKS ≤ devB) :
    mkfs blocksize a devB =
      (Write.mk 0 (.superblock ⟨LANYFS_TYPE_SB, LANYFS_SUPER_MAGIC, blocksize, a, 0,
          clampBlocks a devB, 0, 0, 0⟩) ::
        Write.mk 1 .rootdir ::
        (((mkfsState blocksize a devB).chains ++ [(mkfsState blocksize a devB).cur]).map
            (fun c => Write.mk c.addr (.chain c.next c.stream)) ++
          [Write.mk 0 (.superblock ⟨LANYFS_TYPE_SB, LANYFS_SUPER_MAGIC, blocksize, a, 1,
            clampBlocks a devB, 2, (mkfsState blocksize a devB).cur.addr,
            (mkfsState blocksize a devB).freeblocks⟩)]),
       .ok ⟨1, clampBlocks a devB, 2, (mkfsState blocksize a devB).cur.addr,
         (mkfsState blocksize a devB).freeblocks,
         (mkfsState blocksize a devB).chains ++ [(mkfsState blocksize a devB).cur]⟩) := by
  unfold mkfs mkfsState
  rw [if_neg (by omega)]

theorem mkfs_state_spec (blocksize a devB : Nat) (ha8 : a ≤ 8)
    (hdev : MKLANYFS_MIN_BLOCKS ≤ devB) :
    ∃ valss curVals,
      LoopInv blocksize a (mkfsState blocksize a devB) valss curVals ∧
      (mkfsState blocksize a devB).current = max (clampBlocks a devB) 3 := by
  obtain ⟨valss, curVals, h1, h2⟩ := mapFreeLoop_inv blocksize a (clampBlocks a devB)
    (clampBlocks_le_pow a devB ha8 (by unfold MKLANYFS_MIN_BLOCKS at hdev; omega)) devB
    ⟨[], allocate_chain blocksize 2, 3, 1⟩ [] [] (loopInv_init blocksize a)
    (by
      have := clampBlocks_le_dev a devB
      show clampBlocks a devB ≤ 3 + devB
      omega)
  exact ⟨valss, curVals, h1, h2⟩

/-- C1: for every formatted device with usable block count `B` (after any
clamping), following the free chain from the superblock's `freehead`
through each block's `next` field to `freetail` and collecting every
non-zero slot yields exactly the addresses in `[3, B)` that are not chain
block addresses, without duplicates or omissions. -/
theorem mkfs_chain_completeness (blocksize a devB : Nat)
    (_hbs1 : 9 ≤ blocksize) (_hbs2 : blocksize ≤ 12)
    (_ha1 : 1 ≤ a) (ha8 : a ≤ 8) (hdev : MKLANYFS_MIN_BLOCKS ≤ devB) :
    ∃ r : FormatResult, (mkfs blocksize a devB).2 = .ok r ∧
      ∀ wk, wk = chainWalk blocksize a (readDisk (mkfs blocksize a devB).1)
          r.freehead (devB + 1) →
        (wk.map Prod.fst).getLast? = some r.freetail ∧
        (wk.flatMap Prod.snd).Nodup ∧
        (∀ x, x ∈ wk.flatMap Prod.snd ↔
          (3 ≤ x ∧ x < clampBlocks a devB ∧ x ∉ wk.map Prod.fst)) := by
  have hdev' : (16:Nat) ≤ devB := hdev
  obtain ⟨valss, curVals, hinv, hcur⟩ := mkfs_state_spec blocksize a devB ha8 hdev
  have hmk := mkfs_eq blocksize a devB hdev
  refine ⟨⟨1, clampBlocks a devB, 2, (mkfsState blocksize a devB).cur.addr,
    (mkfsState blocksize a devB).freeblocks,
    (mkfsState blocksize a devB).chains ++ [(mkfsState blocksize a devB).cur]⟩,
    by rw [hmk], ?_⟩
  intro wk hwk
  set st := mkfsState blocksize a devB with hstdef
  set B := clampBlocks a devB with hBdef
  obtain ⟨c0, rest, hsplit⟩ : ∃ c0 rest, st.chains ++ [st.cur] = c0 :: rest := by
    cases hc : st.chains with
    | nil => exact ⟨st.cur, [], by simp⟩
    | cons x xs => exact ⟨x, xs ++ [st.cur], by simp⟩
  have haddrs_eq : (st.chains ++ [st.cur]).map (fun c => c.addr) = chainAddrs st := by
    simp [chainAddrs]
  have hpair : List.Pairwise (· < ·) (chainAddrs st) := List.chain'_iff_pairwise.mp hinv.mono
  have hnodup : (chainAddrs st).Nodup := hpair.imp (fun h => Nat.ne_of_lt h)
  have hheadAddr := hinv.headAddr
  have hmapc0 : (c0 :: rest).map (fun c => c.addr) = chainAddrs st := by
    rw [← hsplit, haddrs_eq]
  have hc0 : c0.addr = 2 := by
    rw [← hmapc0] at hheadAddr
    simpa using hheadAddr
  -- every chain block can be read back from the trace
  have hmemaddr : ∀ c ∈ c0 :: rest, c.addr ∈ chainAddrs st := by
    intro c hcmem
    rw [← hmapc0]
    exact List.mem_map_of_mem _ hcmem
  have hdisk : ∀ c ∈ c0 :: rest,
      readDisk (mkfs blocksize a devB).1 c.addr = some (.chain c.next c.stream) := by
    intro c hcmem
    have hcmem' : c ∈ st.chains ++ [st.cur] := hsplit ▸ hcmem
    have h2le := (hinv.addrLt _ (hmemaddr c hcmem)).1
    rw [hmk]
    apply readDisk_mkfs_trace _ _ _ _ _ hcmem'
    · rw [haddrs_eq]
      exact hnodup
    · show (0:Nat) ≠ c.addr
      omega
  have hlink : linkedTo (c0 :: rest) 0 := by
    rw [← hsplit]
    exact linkedTo_snoc 0 st.chains st.cur hinv.links hinv.curNext
  have hpos : ∀ c ∈ c0 :: rest, 0 < c.addr := by
    intro c hcmem
    have := (hinv.addrLt _ (hmemaddr c hcmem)).1
    omega
  have hcurB : st.current = B ∨ (st.current = 3 ∧ B ≤ 3) := by
    rcases Nat.le_total B 3 with h | h
    · right
      rw [hcur]
      exact ⟨Nat.max_eq_right h, h⟩
    · left
      rw [hcur]
      exact Nat.max_eq_left h
  have hBdev : B ≤ devB := clampBlocks_le_dev a devB
  have hlen : rest.length < devB + 1 := by
    have htot := hinv.total
    have hchainsAll : (st.chains ++ [st.cur]).length = rest.length + 1 := by
      rw [hsplit, List.length_cons]
    rw [List.length_append, List.length_cons, List.length_nil] at hchainsAll
    omega
  have hwalk : wk = (c0 :: rest).map
      (fun c => (c.addr, collectSlots blocksize a c.stream)) := by
    rw [hwk, show (⟨1, B, 2, st.cur.addr, st.freeblocks,
        st.chains ++ [st.cur]⟩ : FormatResult).freehead = c0.addr from hc0.symm]
    exact chainWalk_linked blocksize a _ rest c0 (devB + 1) hdisk hlink hpos hlen
  have hmapfst : wk.map Prod.fst = chainAddrs st := by
    rw [hwalk, List.map_map, ← hmapc0]
    rfl
  have habs : List.Forall₂ (ChainAbs blocksize a) (st.chains ++ [st.cur])
      (valss ++ [curVals]) :=
    List.rel_append (hinv.abs.imp (fun _ _ h => h.1))
      (List.Forall₂.cons hinv.curAbs List.Forall₂.nil)
  have hflat : wk.flatMap Prod.snd = valss.flatten ++ curVals := by
    have hcoll : (c0 :: rest).map (fun c => collectSlots blocksize a c.stream) =
        valss ++ [curVals] := by
      rw [← hsplit]
      exact map_collect_of_forall₂ blocksize a _ _ habs
    have hfun : ((Prod.snd ∘ fun c => (c.addr, collectSlots blocksize a c.stream)) :
        ChainBlock → List Nat) = fun c => collectSlots blocksize a c.stream := rfl
    rw [hwalk, List.flatMap_def, List.map_map, hfun, hcoll, List.flatten_append]
    simp
  refine ⟨?_, ?_, ?_⟩
  · rw [hmapfst]
    show (st.chains.map (fun c => c.addr) ++ [st.cur.addr]).getLast? = some st.cur.addr
    exact List.getLast?_concat _
  · rw [hflat, hinv.slots]
    exact List.Nodup.filter _ (List.nodup_range' _ _)
  · intro x
    rw [hflat, hinv.slots, List.mem_filter, List.mem_range', hmapfst]
    constructor
    · rintro ⟨⟨i, hi, rfl⟩, hdec⟩
      have hnotin : (3 + 1 * i) ∉ chainAddrs st := by simpa using hdec
      exact ⟨by omega, by omega, hnotin⟩
    · rintro ⟨h3, hxB, hnot⟩
      refine ⟨⟨x - 3, by omega, by omega⟩, by simpa using hnot⟩

/-- C2 (amended): the recorded `freeblocks` counts one for every filled
slot and additionally one for every chain block of the free chain
(mkfs.c increments `freeblocks` both after `chain_set_slot` and after each
`allocate_chain`). -/
theorem mkfs_freeblocks_accounting (blocksize a devB : Nat) (ha8 : a ≤ 8)
    (hdev : MKLANYFS_MIN_BLOCKS ≤ devB) :
    ∃ r : FormatResult, (mkfs blocksize a devB).2 = .ok r ∧
      r.freeblocks =
        (r.chains.map (fun c => (collectSlots blocksize a c.stream).length)).sum +
          r.chains.length := by
  obtain ⟨valss, curVals, hinv, -⟩ := mkfs_state_spec blocksize a devB ha8 hdev
  have hmk := mkfs_eq blocksize a devB hdev
  refine ⟨⟨1, clampBlocks a devB, 2, (mkfsState blocksize a devB).cur.addr,
    (mkfsState blocksize a devB).freeblocks,
    (mkfsState blocksize a devB).chains ++ [(mkfsState blocksize a devB).cur]⟩,
    by rw [hmk], ?_⟩
  set st := mkfsState blocksize a devB with hstdef
  show st.freeblocks =
    ((st.chains ++ [st.cur]).map (fun c => (collectSlots blocksize a c.stream).length)).sum +
      (st.chains ++ [st.cur]).length
  have habs : List.Forall₂ (ChainAbs blocksize a) (st.chains ++ [st.cur])
      (valss ++ [curVals]) :=
    List.rel_append (hinv.abs.imp (fun _ _ h => h.1))
      (List.Forall₂.cons hinv.curAbs List.Forall₂.nil)
  have hcoll : (st.chains ++ [st.cur]).map (fun c => collectSlots blocksize a c.stream) =
      valss ++ [curVals] := map_collect_of_forall₂ blocksize a _ _ habs
  have h1 : (st.chains ++ [st.cur]).map
      (fun c => (collectSlots blocksize a c.stream).length) =
      (valss ++ [curVals]).map List.length := by
    rw [← hcoll, List.map_map]
    rfl
  have h2 : ((valss ++ [curVals]).map List.length).sum =
      valss.flatten.length + curVals.length := by
    rw [← List.length_flatten, List.flatten_concat, List.length_append]
  rw [h1, h2, hinv.freeCount, List.length_append, List.length_cons, List.length_nil]
  omega

/-- C10: the fixed allocation order: the superblock is written at address
0, the root directory at address 1 and the first free-chain block at
address 2; the final superblock records `rootdir = 1` and `freehead = 2`. -/
theorem mkfs_fixed_layout (blocksize a devB : Nat) (ha8 : a ≤ 8)
    (hdev : MKLANYFS_MIN_BLOCKS ≤ devB) :
    ∃ r : FormatResult, (mkfs blocksize a devB).2 = .ok r ∧
      r.rootdir = 1 ∧ r.freehead = 2 ∧
      ∃ sb0 nx strm rest,
        (mkfs blocksize a devB).1 =
          Write.mk 0 (.superblock sb0) :: Write.mk 1 .rootdir ::
            Write.mk 2 (.chain nx strm) :: rest := by
  obtain ⟨valss, curVals, hinv, -⟩ := mkfs_state_spec blocksize a devB ha8 hdev
  have hmk := mkfs_eq blocksize a devB hdev
  refine ⟨⟨1, clampBlocks a devB, 2, (mkfsState blocksize a devB).cur.addr,
    (mkfsState blocksize a devB).freeblocks,
    (mkfsState blocksize a devB).chains ++ [(mkfsState blocksize a devB).cur]⟩,
    by rw [hmk], rfl, rfl, ?_⟩
  set st := mkfsState blocksize a devB with hstdef
  obtain ⟨c0, rest, hsplit⟩ : ∃ c0 rest, st.chains ++ [st.cur] = c0 :: rest := by
    cases hc : st.chains with
    | nil => exact ⟨st.cur, [], by simp⟩
    | cons x xs => exact ⟨x, xs ++ [st.cur], by simp⟩
  have hc0 : c0.addr = 2 := by
    have hheadAddr := hinv.headAddr
    have haddrs_eq : (st.chains ++ [st.cur]).map (fun c => c.addr) = chainAddrs st := by
      simp [chainAddrs]
    rw [← haddrs_eq, hsplit] at hheadAddr
    simpa using hheadAddr
  refine ⟨⟨LANYFS_TYPE_SB, LANYFS_SUPER_MAGIC, blocksize, a, 0,
      clampBlocks a devB, 0, 0, 0⟩, c0.next, c0.stream,
    rest.map (fun c => Write.mk c.addr (.chain c.next c.stream)) ++
      [Write.mk 0 (.superblock ⟨LANYFS_TYPE_SB, LANYFS_SUPER_MAGIC, blocksize, a, 1,
        clampBlocks a devB, 2, st.cur.addr, st.freeblocks⟩)], ?_⟩
  rw [hmk, hsplit, List.map_cons, hc0]
  rfl

/-- C6: a device holding fewer than `MKLANYFS_MIN_BLOCKS` blocks makes
formatting fail with the too-small error before any block is written. -/
theorem mkfs_too_small (blocksize a devB : Nat) (h : devB < MKLANYFS_MIN_BLOCKS) :
    mkfs blocksize a devB = ([], .error .tooSmall) := by
  unfold mkfs
  rw [if_pos h]

/-- C8: detect checks the type tag first; only a buffer whose first byte
is the superblock tag has its magic compared against `0x594E414C`. -/
theorem detect_type_before_magic (buf : List Nat) :
    (sbFieldByte buf 0 ≠ LANYFS_TYPE_SB → detect buf = .error .typeMismatch) ∧
    (sbFieldByte buf 0 = LANYFS_TYPE_SB → sbField32 buf 4 ≠ 0x594E414C →
      detect buf = .error .magicMismatch) ∧
    (sbFieldByte buf 0 = LANYFS_TYPE_SB → sbField32 buf 4 = 0x594E414C →
      ∃ f : DetectedSb, detect buf = .ok f) := by
  refine ⟨?_, ?_, ?_⟩
  · intro h
    unfold detect
    rw [if_pos h]
  · intro ht hm
    unfold detect
    rw [if_neg (by simpa using ht),
      if_pos (show sbField32 buf 4 ≠ LANYFS_SUPER_MAGIC from hm)]
  · intro ht hm
    unfold detect
    rw [if_neg (by simpa using ht),
      if_neg (show ¬sbField32 buf 4 ≠ LANYFS_SUPER_MAGIC by simpa using hm)]
    exact ⟨_, rfl⟩

/-- C8 witness: an all-zero 512-byte buffer (type byte 0, magic 0) is
rejected with the type mismatch, not the magic mismatch. -/
theorem detect_type_before_magic_witness :
    detect (List.replicate 512 0) = .error .typeMismatch :=
  (detect_type_before_magic (List.replicate 512 0)).1 (by decide)

/-! ## Remaining claims about the codec and the slot accessors -/

/-- C4: the endian codec round-trips 16-bit and 64-bit values on hosts of
either byte order. -/
theorem endian_roundtrip (littleEndian : Bool) (n16 n64 : Nat)
    (h16 : n16 < 2 ^ 16) (h64 : n64 < 2 ^ 64) :
    fromle16 littleEndian (tole16 littleEndian n16) = n16 ∧
    fromle64 littleEndian (tole64 littleEndian n64) = n64 := by
  cases littleEndian with
  | false =>
      have hcond : cNot (hostFirstByteOfOne false) = 0x01 := rfl
      unfold fromle16 tole16 fromle64 tole64
      rw [hcond]
      simp only [if_pos rfl]
      exact ⟨bswap16_bswap16 n16 h16, bswap64_bswap64 n64 h64⟩
  | true =>
      have hcond : cNot (hostFirstByteOfOne true) = 0 := rfl
      unfold fromle16 tole16 fromle64 tole64
      rw [hcond]
      norm_num

/-- C4 witness. -/
theorem endian_roundtrip_witness :
    fromle16 false (tole16 false 0xBEEF) = 0xBEEF ∧
    fromle64 false (tole64 false 0x0123456789ABCDEF) = 0x0123456789ABCDEF :=
  endian_roundtrip false 0xBEEF 0x0123456789ABCDEF (by decide) (by decide)

/-- C3 (corrected): the slot count of a chain block is
`(2^blocksize - 16) / addrlen`: the 16 bytes before the stream are the
4-byte common header, 4 reserved bytes and the 8-byte `next` field. -/
theorem chain_count_slots_formula (blocksize addrlen : Nat) :
    chain_count_slots blocksize addrlen = (2 ^ blocksize - 16) / addrlen := rfl

/-- C3 counterexample: with the default configuration (4096-byte blocks,
4-byte addresses) the code yields 1020 slots, not `(4096 - 12) / 4 = 1021`
as the claimed 12-byte header region would give. -/
theorem chain_count_slots_not_twelve :
    chain_count_slots 12 4 ≠ (2 ^ 12 - 12) / 4 := by decide

/-- C5: at `addrlen = 8` the clamp compares against
`(uint64_t)1 << 64` — undefined behaviour in C, 0 under the modular
reading — so a 16-block device is "clamped" to 0 blocks even though
`16 ≤ 2^64` means the claim requires it to stay unchanged. -/
theorem clampBlocks_addrlen8_bug :
    clampBlocks 8 16 = 0 ∧ (16:Nat) ≤ 2 ^ (8 * 8) := by
  constructor
  · decide
  · decide

/-- C7: `chain_set_slot` writes into the slot of lowest index whose
decoded value is 0, and returns the no-free-slot result (without writing)
when every slot is non-zero. -/
theorem chain_set_slot_first_zero (blocksize a : Nat) (stream : List Nat) (addr : Nat) :
    ((∀ i < chain_count_slots blocksize a, chain_get_slot blocksize a stream i ≠ 0) →
        chain_set_slot blocksize a stream addr = none) ∧
    (∀ j < chain_count_slots blocksize a, chain_get_slot blocksize a stream j = 0 →
        (∀ k < j, chain_get_slot blocksize a stream k ≠ 0) →
        chain_set_slot blocksize a stream addr =
          some (writeBytes stream (j * a) (leEncode a addr))) := by
  constructor
  · intro hall
    unfold chain_set_slot
    cases hres : chain_get_free_slot blocksize a stream with
    | none => rfl
    | some j =>
        obtain ⟨hjS, hj0, -⟩ := chain_get_free_slot_some _ _ _ _ hres
        exact absurd hj0 (hall j hjS)
  · intro j hjS hj0 hmin
    unfold chain_set_slot
    cases hres : chain_get_free_slot blocksize a stream with
    | none => exact absurd hj0 (chain_get_free_slot_none _ _ _ hres j hjS)
    | some j' =>
        obtain ⟨hj'S, hj'0, hmin'⟩ := chain_get_free_slot_some _ _ _ _ hres
        have hjj : j = j' := by
          by_contra hne
          rcases Nat.lt_or_ge j j' with h | h
          · exact hmin' j h hj0
          · exact hmin j' (by omega) hj'0
        subst hjj
        rfl

/-- C7 witness: on an all-zero (fresh) chain block slot 0 is the first
free slot and receives the encoded address. -/
theorem chain_set_slot_first_zero_witness :
    chain_set_slot 9 4 (List.replicate 496 0) 7 =
      some (writeBytes (List.replicate 496 0) (0 * 4) (leEncode 4 7)) :=
  (chain_set_slot_first_zero 9 4 (List.replicate 496 0) 7).2 0 (by decide) (by decide)
    (fun k hk => absurd hk (Nat.not_lt_zero k))

/-- C9: writing `addr` with `chain_set_slot` and reading the same slot
back returns `addr` when it fits in `addrlen` bytes and
`addr mod 2^(8*addrlen)` otherwise, because only the low `addrlen` bytes
of the little-endian encoding are copied into the slot. -/
theorem chain_slot_roundtrip (blocksize a : Nat) (stream : List Nat) (addr j : Nat)
    (_ha1 : 1 ≤ a) (_ha8 : a ≤ 8) (_h64 : addr < 2 ^ 64)
    (hlen : stream.length = chainStreamLength blocksize)
    (hfree : chain_get_free_slot blocksize a stream = some j) :
    ∀ stream', chain_set_slot blocksize a stream addr = some stream' →
      (0 < addr → addr < 2 ^ (8 * a) → chain_get_slot blocksize a stream' j = addr) ∧
      (2 ^ (8 * a) ≤ addr →
        chain_get_slot blocksize a stream' j = addr % 2 ^ (8 * a)) := by
  intro stream' hset
  obtain ⟨hjS, hj0, hmin⟩ := chain_get_free_slot_some _ _ _ _ hfree
  have hstream' : stream' = writeBytes stream (j * a) (leEncode a addr) := by
    unfold chain_set_slot at hset
    rw [hfree] at hset
    exact (Option.some.inj hset).symm
  subst hstream'
  have hja : j * a + a ≤ stream.length := by
    rw [hlen]
    calc j * a + a = (j + 1) * a := by ring
      _ ≤ chain_count_slots blocksize a * a := Nat.mul_le_mul_right _ hjS
      _ = a * chain_count_slots blocksize a := Nat.mul_comm _ _
      _ ≤ chainStreamLength blocksize := mul_slots_le_chainStreamLength blocksize a
  have key : chain_get_slot blocksize a (writeBytes stream (j * a) (leEncode a addr)) j =
      addr % 2 ^ (8 * a) := by
    unfold chain_get_slot writeBytes
    rw [if_neg (by omega)]
    have htlen : (stream.take (j * a)).length = j * a := by
      rw [List.length_take]
      omega
    have hdrop1 : (stream.take (j * a)).drop (j * a) = [] :=
      List.drop_eq_nil_of_le (by rw [htlen])
    rw [List.append_assoc, List.drop_append_eq_append_drop, hdrop1, List.nil_append,
        htlen, Nat.sub_self, List.drop_zero, List.take_append_eq_append_take,
        List.take_of_length_le (by simp), leEncode_length, Nat.sub_self, List.take_zero,
        List.append_nil, leDecode_leEncode, two_pow_mul8]
  exact ⟨fun _ hlt => by rw [key]; exact Nat.mod_eq_of_lt hlt, fun _ => key⟩

/-- C9 witness: with 1-byte addresses, the address 300 written to the free
slot of a fresh chain block reads back as 300 mod 256 = 44. -/
theorem chain_slot_roundtrip_witness :
    (0 < 300 → 300 < 2 ^ (8 * 1) →
      chain_get_slot 9 1 (writeBytes (List.replicate 496 0) (0 * 1) (leEncode 1 300)) 0 =
        300) ∧
    (2 ^ (8 * 1) ≤ 300 →
      chain_get_slot 9 1 (writeBytes (List.replicate 496 0) (0 * 1) (leEncode 1 300)) 0 =
        300 % 2 ^ (8 * 1)) :=
  chain_slot_roundtrip 9 1 (List.replicate 496 0) 300 0 (by decide) (by decide) (by decide)
    (by decide) (by decide)
    (writeBytes (List.replicate 496 0) (0 * 1) (leEncode 1 300)) (by decide)

/-- C2 counterexample: formatting a 16-block device with 512-byte blocks
and 4-byte addresses records `freeblocks = 14` while only 13 slots
(addresses 3..15) are filled — the first chain block itself is also
counted. -/
theorem mkfs_freeblocks_claim_false :
    mkfsFreeblocks 9 4 16 = some 14 ∧ mkfsFilledSlots 9 4 16 = some 13 ∧
      mkfsFreeblocks 9 4 16 ≠ mkfsFilledSlots 9 4 16 := by
  have h1 : mkfsFreeblocks 9 4 16 = some 14 := by decide
  have h2 : mkfsFilledSlots 9 4 16 = some 13 := by decide
  refine ⟨h1, h2, ?_⟩
  rw [h1, h2]
  decide

/-- C1 witness: the 16-block, 512-byte-block, 4-byte-address device. -/
theorem mkfs_chain_completeness_witness :
    ∃ r : FormatResult, (mkfs 9 4 16).2 = .ok r ∧
      ∀ wk, wk = chainWalk 9 4 (readDisk (mkfs 9 4 16).1) r.freehead (16 + 1) →
        (wk.map Prod.fst).getLast? = some r.freetail ∧
        (wk.flatMap Prod.snd).Nodup ∧
        (∀ x, x ∈ wk.flatMap Prod.snd ↔
          (3 ≤ x ∧ x < clampBlocks 4 16 ∧ x ∉ wk.map Prod.fst)) :=
  mkfs_chain_completeness 9 4 16 (by norm_num) (by norm_num) (by norm_num) (by norm_num)
    (by decide)

/-- C2 witness for the amended accounting. -/
theorem mkfs_freeblocks_accounting_witness :
    ∃ r : FormatResult, (mkfs 9 4 16).2 = .ok r ∧
      r.freeblocks =
        (r.chains.map (fun c => (collectSlots 9 4 c.stream).length)).sum +
          r.chains.length :=
  mkfs_freeblocks_accounting 9 4 16 (by norm_num) (by decide)

/-- C6 witness: a 5-block device is rejected without any write. -/
theorem mkfs_too_small_witness : mkfs 12 4 5 = ([], .error .tooSmall) :=
  mkfs_too_small 12 4 5 (by decide)

/-- C10 witness. -/
theorem mkfs_fixed_layout_witness :
    ∃ r : FormatResult, (mkfs 12 4 16).2 = .ok r ∧
      r.rootdir = 1 ∧ r.freehead = 2 ∧
      ∃ sb0 nx strm rest,
        (mkfs 12 4 16).1 =
          Write.mk 0 (.superblock sb0) :: Write.mk 1 .rootdir ::
            Write.mk 2 (.chain nx strm) :: rest :=
  mkfs_fixed_layout 12 4 16 (by norm_num) (by decide)

end LanyFS
